import Mathlib

/-!
Shallow embedding of the `ansi_term_buf` crate (src/lib.rs and src/parser.rs):
a minimal ANSI terminal emulator consisting of an escape-sequence parser
(`AnsiParser.advance`) and a grid-buffer model (`TermState`), composed by
`Term.feed`.

Modelling conventions:
* Bytes are `Nat` values `< 256`; `u8`/`u16`/`usize` fields are `Nat`s, with an
  explicit `% 2 ^ 16` where Rust `u16` addition can actually wrap
  (release-mode two's-complement semantics).  `usize` additions on the cursor
  row are modelled as plain `Nat` (a terminal row count can never reach
  `2 ^ 64` within any feasible input).
* Rust `String`s are modelled as `List Char`.
* Fallible operations (a slice indexing that would panic) return `Option`:
  `none` models a panic.
-/

namespace AnsiTermBuf

/-! ## UTF-8 decoding

The parser iterates `bytes.utf8_chunks()` and processes only the valid part of
each chunk (`chnk.valid().chars()`); the bytes of invalid chunks are ignored.
`decodeUtf8` models this: it decodes the maximal valid scalar at the front,
and otherwise skips one byte.  (Skipping one byte at a time yields the same
character sequence as skipping whole maximal invalid chunks, because every
byte after the first inside an invalid chunk is a continuation byte, which can
never begin a valid scalar.)

`decodeStrict` models `std::str::from_utf8`: it succeeds only when the whole
byte list is valid UTF-8. -/

/-- A UTF-8 continuation byte: `0x80..=0xBF`. -/
def contByte (b : Nat) : Bool := 0x80 ≤ b && b ≤ 0xBF

/-- Classify a byte as the start of a UTF-8 sequence: `none` for a byte that
can never start a sequence (continuation bytes, the overlong leads `0xC0`,
`0xC1`, and `0xF5..=0xFF`); otherwise the initial scalar bits and the number
of continuation bytes that must follow. -/
def startByte (b : Nat) : Option (Nat × Nat) :=
  if b ≤ 0x7F then some (b, 0)
  else if 0xC2 ≤ b && b ≤ 0xDF then some (b - 0xC0, 1)
  else if 0xE0 ≤ b && b ≤ 0xEF then some (b - 0xE0, 2)
  else if 0xF0 ≤ b && b ≤ 0xF4 then some (b - 0xF0, 3)
  else none

/-- Constraint on the byte immediately after a lead byte: the leads `0xE0`,
`0xED`, `0xF0`, `0xF4` restrict it (ruling out overlong forms, surrogates and
scalars above `0x10FFFF`); all other leads accept any continuation byte. -/
def sndOk (lead b1 : Nat) : Bool :=
  if lead = 0xE0 then 0xA0 ≤ b1 && b1 ≤ 0xBF
  else if lead = 0xED then 0x80 ≤ b1 && b1 ≤ 0x9F
  else if lead = 0xF0 then 0x90 ≤ b1 && b1 ≤ 0xBF
  else if lead = 0xF4 then 0x80 ≤ b1 && b1 ≤ 0x8F
  else contByte b1

/-- A partially consumed multi-byte sequence: the lead byte, the scalar bits
accumulated so far, the number of continuation bytes still missing, and
whether the next byte is the one immediately after the lead (subject to
`sndOk`). -/
structure Pending where
  lead : Nat
  acc : Nat
  need : Nat
  atSnd : Bool
deriving DecidableEq

/-- Streaming lossy UTF-8 decoding, the model of iterating
`bytes.utf8_chunks()` and taking only `chnk.valid().chars()` (the source never
looks at `Utf8Chunk::invalid()`, so the bytes of invalid chunks are simply
dropped).  A byte that cannot continue the pending sequence closes it as a
maximal invalid chunk (emitting nothing) and is then examined as a fresh
sequence start; an incomplete sequence at the end of the input is likewise an
invalid chunk.  This one-byte-at-a-time formulation produces exactly the
characters of the valid chunks. -/
def decodeGo : Option Pending → List Nat → List Char
  | _, [] => []
  | none, b :: rest =>
    match startByte b with
    | none => decodeGo none rest
    | some (a, 0) => Char.ofNat a :: decodeGo none rest
    | some (a, n + 1) => decodeGo (some ⟨b, a, n + 1, true⟩) rest
  | some p, b :: rest =>
    if (if p.atSnd then sndOk p.lead b else contByte b) then
      if p.need = 1 then
        Char.ofNat (p.acc * 0x40 + (b - 0x80)) :: decodeGo none rest
      else decodeGo (some ⟨p.lead, p.acc * 0x40 + (b - 0x80), p.need - 1, false⟩) rest
    else
      match startByte b with
      | none => decodeGo none rest
      | some (a, 0) => Char.ofNat a :: decodeGo none rest
      | some (a, n + 1) => decodeGo (some ⟨b, a, n + 1, true⟩) rest

/-- Lossy UTF-8 decoding as consumed by `AnsiParser::advance`. -/
def decodeUtf8 (bytes : List Nat) : List Char := decodeGo none bytes

/-- Streaming strict UTF-8 decoding: like `decodeGo` but any invalid byte (or
an incomplete sequence at the end) fails the whole decode. -/
def decodeStrictGo : Option Pending → List Nat → Option (List Char)
  | none, [] => some []
  | some _, [] => none
  | none, b :: rest =>
    match startByte b with
    | none => none
    | some (a, 0) => (decodeStrictGo none rest).map (Char.ofNat a :: ·)
    | some (a, n + 1) => decodeStrictGo (some ⟨b, a, n + 1, true⟩) rest
  | some p, b :: rest =>
    if (if p.atSnd then sndOk p.lead b else contByte b) then
      if p.need = 1 then
        (decodeStrictGo none rest).map (Char.ofNat (p.acc * 0x40 + (b - 0x80)) :: ·)
      else decodeStrictGo (some ⟨p.lead, p.acc * 0x40 + (b - 0x80), p.need - 1, false⟩) rest
    else none

/-- Strict UTF-8 decoding, the model of `std::str::from_utf8`: `none` exactly
when the byte list is not valid UTF-8. -/
def decodeStrict (bytes : List Nat) : Option (List Char) := decodeStrictGo none bytes

/-! ## Parser (src/parser.rs) -/

/-- The `ESC` character, `0x1b` (parser.rs line 3). -/
def ESC : Char := Char.ofNat 0x1b

/-- Parser status (parser.rs `enum Status`). -/
inductive Status where
  | Init
  | Esc
  | ControlSeqStart
deriving DecidableEq

/-- Parser state (parser.rs `struct AnsiParser`): status plus the accumulated
parameter bytes. -/
structure AnsiParser where
  status : Status
  paramBytes : List Nat
deriving DecidableEq

/-- The commands emitted by the parser (parser.rs `enum TermCmd`).  The `u8`
payloads are `Nat`s (the parser only ever produces values `≤ 255`). -/
inductive TermCmd where
  | PutChar (c : Char)
  | CarriageReturn
  | LineFeed
  | CursorUp (n : Nat)
  | CursorDown (n : Nat)
  | CursorLeft (n : Nat)
  | CursorRight (n : Nat)
  | CursorCrDown (n : Nat)
  | CursorCrUp (n : Nat)
  | CursorSet (x y : Nat)
  | EraseFromCursorToEol
  | Clear (mode : Nat)
  | BeginSyncUpdate
  | EndSyncUpdate
deriving DecidableEq

/-- Model of `str::split(';')`: splits into `;`-separated fields.  An empty
string yields one empty field; a trailing separator yields a trailing empty
field, exactly as Rust's `split`. -/
def splitOnSep (sep : Char) : List Char → List (List Char)
  | [] => [[]]
  | c :: cs =>
    if c = sep then [] :: splitOnSep sep cs
    else
      match splitOnSep sep cs with
      | [] => [[c]]
      | f :: rest => (c :: f) :: rest

/-- Model of `str::parse::<u8>` on a field.  `u8::from_str` also accepts a
leading `+` sign, but a `+` byte (0x2B) can never occur among parameter bytes
(which are confined to `0x30..=0x3F`), so only the digits-form is modelled.
Rust fails at the first overflowing step; over `Nat` this is equivalent to
computing the value and rejecting it when it exceeds `u8::MAX`. -/
def parseU8 (cs : List Char) : Option Nat :=
  if cs ≠ [] && cs.all Char.isDigit then
    let v := cs.foldl (fun acc c => acc * 10 + (c.toNat - 0x30)) 0
    if v ≤ 255 then some v else none
  else none

/-- Model of `ParamBytesExt::parse_first`: decode the parameter bytes as UTF-8
text, split on `;`, and parse the first field as a `u8`. -/
def parse_first (ps : List Nat) : Option Nat :=
  (decodeStrict ps).bind fun s =>
    match splitOnSep ';' s with
    | [] => none
    | a :: _ => parseU8 a

/-- Model of `ParamBytesExt::parse::<2>`: the output array starts as `[0, 0]`;
`zip(args, &mut arr)` walks the fields and the two slots in lockstep, so extra
fields are ignored, a missing second field leaves its slot at `0`, and a
parse failure of any visited field aborts the whole parse with `none`. -/
def parseArr2 (ps : List Nat) : Option (Nat × Nat) :=
  (decodeStrict ps).bind fun s =>
    match splitOnSep ';' s with
    | [] => some (0, 0)
    | [a] => (parseU8 a).map (fun v => (v, 0))
    | a :: b :: _ =>
      (parseU8 a).bind fun va => (parseU8 b).map fun vb => (va, vb)

/-- The command selected by a terminator byte (parser.rs lines 113-179), given
the accumulated parameter bytes.  `none` means the sequence is consumed
without emitting a command (`m`, unknown terminators, and `h`/`l` with the
wrong mode string). -/
def terminatorCmd (ch : Char) (ps : List Nat) : Option TermCmd :=
  if ch = 'm' then none
  else if ch = 'K' then some .EraseFromCursorToEol
  else if ch = 'A' then some (.CursorUp ((parse_first ps).getD 1))
  else if ch = 'B' then some (.CursorDown ((parse_first ps).getD 1))
  else if ch = 'C' then some (.CursorRight ((parse_first ps).getD 1))
  else if ch = 'D' then some (.CursorLeft ((parse_first ps).getD 1))
  else if ch = 'E' then some (.CursorCrDown ((parse_first ps).getD 1))
  else if ch = 'F' then some (.CursorCrUp ((parse_first ps).getD 1))
  else if ch = 'H' then
    match parseArr2 ps with
    | some (x, y) => some (.CursorSet x y)
    | none => some (.CursorSet 1 1)
  else if ch = 'J' then some (.Clear ((parse_first ps).getD 2))
  else if ch = 'h' then
    if ps = [0x3F, 0x32, 0x30, 0x32, 0x36] then some .BeginSyncUpdate else none
  else if ch = 'l' then
    if ps = [0x3F, 0x32, 0x30, 0x32, 0x36] then some .EndSyncUpdate else none
  else none

/-- One step of the parser state machine on a decoded character (the body of
the `match self.status` in `AnsiParser::advance`).  Returns the next parser
state and the command emitted for this character, if any (each character emits
at most one command). -/
def processChar (p : AnsiParser) (ch : Char) : AnsiParser × Option TermCmd :=
  match p.status with
  | .Init =>
    if ch = ESC then ({ p with status := .Esc }, none)
    else if ch = '\r' then (p, some .CarriageReturn)
    else if ch = '\n' then (p, some .LineFeed)
    else (p, some (.PutChar ch))
  | .Esc =>
    if ch = '=' then ({ p with status := .Init }, none)
    else if ch = '[' then ({ p with status := .ControlSeqStart }, none)
    else (p, none)
  | .ControlSeqStart =>
    if 0x30 ≤ ch.toNat && ch.toNat ≤ 0x3F then
      ({ p with paramBytes := p.paramBytes ++ [ch.toNat] }, none)
    else if 0x40 ≤ ch.toNat && ch.toNat ≤ 0x7E then
      (⟨.Init, []⟩, terminatorCmd ch p.paramBytes)
    else (p, none)

/-- Model of `AnsiParser::advance` over the already-decoded characters of a
chunk: the final parser state and the emitted commands, in order. -/
def advance : AnsiParser → List Char → AnsiParser × List TermCmd
  | p, [] => (p, [])
  | p, c :: cs =>
    let pc := processChar p c
    let r := advance pc.1 cs
    (r.1, pc.2.toList ++ r.2)

/-! ## Grid buffer model (src/lib.rs) -/

/-- The cursor (lib.rs `struct Cursor`): `x : u16`, `y : usize`. -/
structure Cursor where
  x : Nat
  y : Nat
deriving DecidableEq

/-- Linear cell index of the cursor (lib.rs `Cursor::index`). -/
def Cursor.index (c : Cursor) (width : Nat) : Nat := c.y * width + c.x

/-- The grid state (lib.rs `struct TermState`): fixed width (`u16`), a height
that grows, the row-major cell vector, and the cursor. -/
structure TermState where
  width : Nat
  height : Nat
  cells : List Char
  cursor : Cursor
deriving DecidableEq

namespace TermState

/-- Model of `TermState::line_slice`: the `width` cells of row `y`.  (In the
source this is the slice `cells[y*width .. y*width+width]`, which under the
length invariant `cells.length = width * height` is always in bounds for
`y < height`; `take`/`drop` agree with it there.) -/
def line_slice (s : TermState) (y : Nat) : List Char :=
  (s.cells.drop (y * s.width)).take s.width

/-- Model of `TermState::contents_to_string`: each of the `height` rows as
exactly `width` characters, each row followed by a newline. -/
def contents_to_string (s : TermState) : List Char :=
  ((List.range s.height).map (fun y => s.line_slice y ++ ['\n'])).flatten

/-- Model of `TermState::extend`: append one space-filled row. -/
def extend (s : TermState) : TermState :=
  { s with cells := s.cells ++ List.replicate s.width ' ', height := s.height + 1 }

/-- Iterated `extend`. -/
def extendN (s : TermState) : Nat → TermState
  | 0 => s
  | n + 1 => (s.extend).extendN n

/-- Model of `TermState::extend_while_cursor_past`, the loop
`while cursor.y >= height { extend() }`: each `extend` increments `height` by
one and never changes the cursor, so the loop runs exactly
`cursor.y + 1 - height` times (zero times when `cursor.y < height`). -/
def extend_while_cursor_past (s : TermState) : TermState :=
  s.extendN (s.cursor.y + 1 - s.height)

/-- Model of `TermState::put_char`.  The write `cells[cursor.index(width)] = ch`
is a bounds-checked slice index: `none` models the panic when the index is out
of bounds (which the growth loop does not rule out when `cursor.x ≥ width`).
`cursor.x += 1` is `u16` addition, hence the `% 2 ^ 16`. -/
def put_char (s : TermState) (ch : Char) : Option TermState :=
  let s1 := s.extend_while_cursor_past
  let idx := s1.cursor.index s1.width
  if idx < s1.cells.length then
    let s2 := { s1 with cells := s1.cells.set idx ch }
    let x : Nat := (s2.cursor.x + 1) % 2 ^ 16
    if x ≥ s2.width then
      some { s2 with cursor := ⟨0, s2.cursor.y + 1⟩ }
    else
      some { s2 with cursor := ⟨x, s2.cursor.y⟩ }
  else none

/-- The loop body of `TermState::erase_from_cursor_to_eol`, iterating columns
`x, x+1, ...` while `x < width`; the `for x in cursor.x..width` range runs at
most `width - x` iterations, which the fuel argument counts down. -/
def eraseLoop (y width : Nat) : Nat → Nat → List Char → List Char
  | _, 0, cells => cells
  | x, fuel + 1, cells =>
    let idx := y * width + x
    if idx ≥ cells.length then cells
    else eraseLoop y width (x + 1) fuel (cells.set idx ' ')

/-- Model of `TermState::erase_from_cursor_to_eol`: overwrite the cells from
the cursor column to the end of the cursor row with spaces, silently stopping
at the end of the allocated buffer. -/
def erase_from_cursor_to_eol (s : TermState) : TermState :=
  { s with
    cells := eraseLoop s.cursor.y s.width s.cursor.x (s.width - s.cursor.x) s.cells }

/-- Model of `TermState::clear`: every existing cell is overwritten with a
space (`cells.fill(' ')`); a mode other than `2` only logs a warning, the
clear happens the same way for every mode. -/
def clear (s : TermState) (mode : Nat) : TermState :=
  { s with cells := List.replicate s.cells.length ' ' }

end TermState

/-- Application of one parser command to the grid (the `match cmd` inside
`Term::feed`).  `u8` payloads were converted with `u16::from` / `as usize`
before the arithmetic; `cursor.x += n` is `u16` addition (wrapping modelled by
`% 2 ^ 16`), the `saturating_sub`s are `Nat` subtraction.  The source match
has no arm for the synchronized-update markers; per the spec they carry no
grid mutation, so they are modelled as no-ops. -/
def applyCmd (s : TermState) : TermCmd → Option TermState
  | .PutChar c => s.put_char c
  | .CarriageReturn => some { s with cursor := ⟨0, s.cursor.y⟩ }
  | .LineFeed => some { s with cursor := ⟨s.cursor.x, s.cursor.y + 1⟩ }
  | .CursorUp n => some { s with cursor := ⟨s.cursor.x, s.cursor.y - n⟩ }
  | .CursorDown n => some { s with cursor := ⟨s.cursor.x, s.cursor.y + n⟩ }
  | .CursorLeft n => some { s with cursor := ⟨s.cursor.x - n, s.cursor.y⟩ }
  | .CursorRight n => some { s with cursor := ⟨(s.cursor.x + n) % 2 ^ 16, s.cursor.y⟩ }
  | .CursorCrUp n => some { s with cursor := ⟨0, s.cursor.y - n⟩ }
  | .CursorCrDown n => some { s with cursor := ⟨0, s.cursor.y + n⟩ }
  | .CursorSet x y => some { s with cursor := ⟨x, y⟩ }
  | .EraseFromCursorToEol => some s.erase_from_cursor_to_eol
  | .Clear mode => some (s.clear mode)
  | .BeginSyncUpdate => some s
  | .EndSyncUpdate => some s

/-- Apply a list of commands in order; `none` as soon as one panics. -/
def applyCmds : TermState → List TermCmd → Option TermState
  | s, [] => some s
  | s, c :: cs =>
    match applyCmd s c with
    | some s' => applyCmds s' cs
    | none => none

/-- The public terminal (lib.rs `struct Term`): grid state plus parser. -/
structure Term where
  term_state : TermState
  ansiParser : AnsiParser
deriving DecidableEq

namespace Term

/-- Model of `Term::new`: empty grid of the given width, parser in `Init`. -/
def new (width : Nat) : Term :=
  ⟨⟨width, 0, [], ⟨0, 0⟩⟩, ⟨.Init, []⟩⟩

/-- Model of `Term::feed`: decode the bytes, drive the parser over the decoded
characters, and apply each emitted command to the grid in emission order.
(The source interleaves command application with parsing via a callback; since
the parser never reads the grid, this is the same function.)  `none` models a
panic inside a command application. -/
def feed (t : Term) (bytes : List Nat) : Option Term :=
  let r := advance t.ansiParser (decodeUtf8 bytes)
  match applyCmds t.term_state r.2 with
  | some st => some ⟨st, r.1⟩
  | none => none

/-- Model of `Term::reset`: cursor to the origin, cells emptied, height zero,
parser reinitialized; the width is kept. -/
def reset (t : Term) : Term :=
  ⟨{ t.term_state with cursor := ⟨0, 0⟩, cells := [], height := 0 }, ⟨.Init, []⟩⟩

/-- Model of `Term::contents_to_string`. -/
def contents_to_string (t : Term) : List Char :=
  t.term_state.contents_to_string

/-- Model of `Term::is_empty`: whether the cell vector is empty. -/
def is_empty (t : Term) : Bool :=
  t.term_state.cells.isEmpty

end Term

/-- Whether a command is a put-character command. -/
def TermCmd.isPutChar : TermCmd → Bool
  | .PutChar _ => true
  | _ => false

/-- The grid length invariant: the cell buffer holds exactly
`width * height` cells, i.e. whole rows only. -/
def TermState.cellsInv (s : TermState) : Prop :=
  s.cells.length = s.width * s.height

/-- Ceiling division `⌈k / w⌉` over `Nat`. -/
def ceilDiv (k w : Nat) : Nat := (k + w - 1) / w

/-- The grid state reached from a fresh width-`w` terminal after writing the
plain characters `l`: `⌈k/w⌉` rows, the characters row-major followed by
space padding, cursor at `(k % w, k / w)`. -/
def filledState (w : Nat) (l : List Char) : TermState :=
  ⟨w, ceilDiv l.length w,
   l ++ List.replicate (ceilDiv l.length w * w - l.length) ' ',
   ⟨l.length % w, l.length / w⟩⟩

/-! ## Helper lemmas -/

lemma extendN_width (s : TermState) (n : Nat) : (s.extendN n).width = s.width := by
  induction n generalizing s with
  | zero => rfl
  | succ n ih => simp [TermState.extendN, ih, TermState.extend]

lemma extendN_cursor (s : TermState) (n : Nat) : (s.extendN n).cursor = s.cursor := by
  induction n generalizing s with
  | zero => rfl
  | succ n ih => simp [TermState.extendN, ih, TermState.extend]

lemma extendN_height (s : TermState) (n : Nat) : (s.extendN n).height = s.height + n := by
  induction n generalizing s with
  | zero => rfl
  | succ n ih => simp [TermState.extendN, ih, TermState.extend]; omega

lemma extendN_cells_length (s : TermState) (n : Nat) :
    (s.extendN n).cells.length = s.cells.length + n * s.width := by
  induction n generalizing s with
  | zero => simp [TermState.extendN]
  | succ n ih => simp [TermState.extendN, ih, TermState.extend]; ring

lemma eraseLoop_length (y w : Nat) (x fuel : Nat) (cells : List Char) :
    (TermState.eraseLoop y w x fuel cells).length = cells.length := by
  induction fuel generalizing x cells with
  | zero => rfl
  | succ fuel ih =>
    simp only [TermState.eraseLoop]
    split
    · rfl
    · simp [ih]

lemma ewcp_cursor (s : TermState) :
    s.extend_while_cursor_past.cursor = s.cursor := by
  simp [TermState.extend_while_cursor_past, extendN_cursor]

lemma ewcp_width (s : TermState) :
    s.extend_while_cursor_past.width = s.width := by
  simp [TermState.extend_while_cursor_past, extendN_width]

/-- Sanity: the closed form of `extend_while_cursor_past` satisfies exactly the
recurrence of the source loop `while cursor.y >= height { extend() }`. -/
lemma ewcp_loop_eq (s : TermState) :
    s.extend_while_cursor_past =
      if s.cursor.y ≥ s.height then (s.extend).extend_while_cursor_past else s := by
  unfold TermState.extend_while_cursor_past
  by_cases h : s.cursor.y ≥ s.height
  · have h1 : s.cursor.y + 1 - s.height = (s.cursor.y + 1 - (s.extend).height) + 1 := by
      simp [TermState.extend]; omega
    have h2 : (s.extend).cursor = s.cursor := rfl
    simp [h, h1, TermState.extendN, TermState.extend]
  · have h1 : s.cursor.y + 1 - s.height = 0 := by omega
    simp [h, h1, TermState.extendN]

lemma cellsInv_extendN (s : TermState) (n : Nat) (h : s.cellsInv) :
    (s.extendN n).cellsInv := by
  unfold TermState.cellsInv at *
  rw [extendN_cells_length, extendN_width, extendN_height, h]
  ring

lemma put_char_cellsInv (s s' : TermState) (c : Char) (h : s.cellsInv)
    (hp : s.put_char c = some s') : s'.cellsInv := by
  unfold TermState.put_char at hp
  have h1 : s.extend_while_cursor_past.cellsInv := cellsInv_extendN s _ h
  simp only at hp
  split at hp
  · unfold TermState.cellsInv at *
    split at hp <;>
      (cases hp; simpa using h1)
  · cases hp

lemma applyCmd_cellsInv (s s' : TermState) (c : TermCmd) (h : s.cellsInv)
    (hp : applyCmd s c = some s') : s'.cellsInv := by
  cases c with
  | PutChar ch => exact put_char_cellsInv s s' ch h hp
  | EraseFromCursorToEol =>
    cases hp
    unfold TermState.cellsInv TermState.erase_from_cursor_to_eol at *
    simpa [eraseLoop_length] using h
  | Clear mode =>
    cases hp
    unfold TermState.cellsInv TermState.clear at *
    simpa using h
  | _ =>
    simp only [applyCmd] at hp <;> cases hp <;>
      first
        | exact h
        | (unfold TermState.cellsInv at *; simpa using h)

lemma applyCmds_cellsInv (s s' : TermState) (cs : List TermCmd) (h : s.cellsInv)
    (hp : applyCmds s cs = some s') : s'.cellsInv := by
  induction cs generalizing s with
  | nil => cases hp; exact h
  | cons c cs ih =>
    simp only [applyCmds] at hp
    split at hp
    · exact ih _ (applyCmd_cellsInv s _ c h (by assumption)) hp
    · cases hp

lemma applyCmd_not_putChar (s : TermState) (c : TermCmd) (h : c.isPutChar = false) :
    ∃ s', applyCmd s c = some s' ∧ s'.height = s.height ∧
      s'.cells.length = s.cells.length ∧ s'.width = s.width := by
  cases c <;> simp_all [TermCmd.isPutChar, applyCmd,
    TermState.erase_from_cursor_to_eol, eraseLoop_length, TermState.clear]

lemma applyCmds_not_putChar (s : TermState) (cs : List TermCmd)
    (h : ∀ c ∈ cs, c.isPutChar = false) :
    ∃ s', applyCmds s cs = some s' ∧ s'.height = s.height ∧
      s'.cells.length = s.cells.length ∧ s'.width = s.width := by
  induction cs generalizing s with
  | nil => exact ⟨s, rfl, rfl, rfl, rfl⟩
  | cons c cs ih =>
    obtain ⟨s1, hs1, hh1, hl1, hw1⟩ := applyCmd_not_putChar s c (h c (by simp))
    obtain ⟨s', hs', hh', hl', hw'⟩ := ih s1 (fun c hc => h c (by simp [hc]))
    exact ⟨s', by simp [applyCmds, hs1, hs'], by omega, by omega, by omega⟩

lemma advance_append (p : AnsiParser) (cs ds : List Char) :
    advance p (cs ++ ds) =
      ((advance (advance p cs).1 ds).1,
        (advance p cs).2 ++ (advance (advance p cs).1 ds).2) := by
  induction cs generalizing p with
  | nil => simp [advance]
  | cons c cs ih => simp [advance, ih]

lemma applyCmds_append (s : TermState) (l1 l2 : List TermCmd) :
    applyCmds s (l1 ++ l2) = (applyCmds s l1).bind (fun s' => applyCmds s' l2) := by
  induction l1 generalizing s with
  | nil => simp [applyCmds]
  | cons c l1 ih =>
    simp only [List.cons_append, applyCmds]
    split <;> simp [ih]

lemma decodeUtf8_cons_ascii (b : Nat) (l : List Nat) (h : b ≤ 0x7F) :
    decodeUtf8 (b :: l) = Char.ofNat b :: decodeUtf8 l := by
  simp [decodeUtf8, decodeGo, startByte, h]

lemma decodeStrict_cons_ascii (b : Nat) (l : List Nat) (h : b ≤ 0x7F) :
    decodeStrict (b :: l) = (decodeStrict l).map (Char.ofNat b :: ·) := by
  simp [decodeStrict, decodeStrictGo, startByte, h]

lemma decodeUtf8_ascii_append (a b : List Nat) (h : ∀ x ∈ a, x ≤ 0x7F) :
    decodeUtf8 (a ++ b) = a.map Char.ofNat ++ decodeUtf8 b := by
  induction a with
  | nil => simp
  | cons x a ih =>
    have hx : x ≤ 0x7F := h x (by simp)
    rw [List.cons_append, decodeUtf8_cons_ascii x _ hx,
      ih (fun y hy => h y (by simp [hy]))]
    simp

lemma decodeUtf8_nil : decodeUtf8 [] = [] := rfl

lemma decodeUtf8_ascii (a : List Nat) (h : ∀ x ∈ a, x ≤ 0x7F) :
    decodeUtf8 a = a.map Char.ofNat := by
  have h2 := decodeUtf8_ascii_append a [] h
  rw [List.append_nil, decodeUtf8_nil, List.append_nil] at h2
  exact h2

lemma decodeStrict_ascii (a : List Nat) (h : ∀ x ∈ a, x ≤ 0x7F) :
    decodeStrict a = some (a.map Char.ofNat) := by
  induction a with
  | nil => rfl
  | cons x a ih =>
    have hx : x ≤ 0x7F := h x (by simp)
    rw [decodeStrict_cons_ascii x _ hx, ih (fun y hy => h y (by simp [hy]))]
    rfl

set_option maxRecDepth 4096 in
lemma char_toNat_ofNat : ∀ n < 256, (Char.ofNat n).toNat = n := by decide

lemma startByte_none (b : Nat) (h : b = 0xC0 ∨ b = 0xC1 ∨ 0xF5 ≤ b) :
    startByte b = none := by
  rcases h with h | h | h
  · subst h; decide
  · subst h; decide
  · unfold startByte
    have h1 : ¬ b ≤ 0x7F := by omega
    have h2 : (0xC2 ≤ b && b ≤ 0xDF) = false := by
      simp only [Bool.and_eq_false_iff, decide_eq_false_iff_not]
      omega
    have h3 : (0xE0 ≤ b && b ≤ 0xEF) = false := by
      simp only [Bool.and_eq_false_iff, decide_eq_false_iff_not]
      omega
    have h4 : (0xF0 ≤ b && b ≤ 0xF4) = false := by
      simp only [Bool.and_eq_false_iff, decide_eq_false_iff_not]
      omega
    simp [h1, h2, h3, h4]

lemma count_newline_contents (s : TermState) (h : ∀ c ∈ s.cells, c ≠ '\n') :
    (s.contents_to_string).count '\n' = s.height := by
  unfold TermState.contents_to_string
  rw [List.count_flatten, List.map_map]
  have hrow : ∀ y ∈ List.range s.height,
      (List.count '\n' ∘ fun y => s.line_slice y ++ ['\n']) y = 1 := by
    intro y _
    have h0 : (s.line_slice y).count '\n' = 0 := by
      rw [List.count_eq_zero]
      intro hmem
      unfold TermState.line_slice at hmem
      exact h '\n' (List.mem_of_mem_drop (List.mem_of_mem_take hmem)) rfl
    simp [Function.comp, List.count_append, h0]
  rw [List.map_congr_left hrow]
  simp

lemma splitOnSep_no_sep (sep : Char) (xs : List Char) (h : ∀ c ∈ xs, c ≠ sep) :
    splitOnSep sep xs = [xs] := by
  induction xs with
  | nil => rfl
  | cons x xs ih =>
    have hx : x ≠ sep := h x (by simp)
    rw [splitOnSep, if_neg hx, ih (fun c hc => h c (by simp [hc]))]

lemma splitOnSep_sep_cons (sep : Char) (ys : List Char) :
    splitOnSep sep (sep :: ys) = [] :: splitOnSep sep ys := by
  rw [splitOnSep, if_pos rfl]

lemma splitOnSep_append (sep : Char) (xs ys : List Char) (h : ∀ c ∈ xs, c ≠ sep) :
    splitOnSep sep (xs ++ sep :: ys) = xs :: splitOnSep sep ys := by
  induction xs with
  | nil => simpa using splitOnSep_sep_cons sep ys
  | cons x xs ih =>
    have hx : x ≠ sep := h x (by simp)
    rw [List.cons_append, splitOnSep, if_neg hx, ih (fun c hc => h c (by simp [hc]))]

lemma char_ofNat_ne_semi (x : Nat) (h : x ≤ 0x39) : Char.ofNat x ≠ ';' := by
  intro heq
  have ht := char_toNat_ofNat x (by omega)
  rw [heq] at ht
  have h59 : Char.toNat ';' = 59 := rfl
  omega

lemma ceilDiv_eq (k w : Nat) (hw : 0 < w) :
    ceilDiv k w = if k % w = 0 then k / w else k / w + 1 := by
  unfold ceilDiv
  have hk : k / w * w + k % w = k := Nat.div_add_mod' k w
  have hr : k % w < w := Nat.mod_lt _ hw
  by_cases h : k % w = 0
  · have h1 : k + w - 1 = w * (k / w) + (w - 1) := by
      have hm : w * (k / w) = k / w * w := Nat.mul_comm _ _
      omega
    have h2 : (w - 1) / w = 0 := Nat.div_eq_of_lt (by omega)
    rw [if_pos h, h1, Nat.mul_add_div hw, h2]
    omega
  · have h1 : k + w - 1 = w * (k / w + 1) + (k % w - 1) := by
      have hm : w * (k / w + 1) = k / w * w + w := by ring
      omega
    have h2 : (k % w - 1) / w = 0 := Nat.div_eq_of_lt (by omega)
    rw [if_neg h, h1, Nat.mul_add_div hw, h2]

lemma succ_mod_div_lt (k w : Nat) (hw : 0 < w) (h : k % w + 1 < w) :
    (k + 1) % w = k % w + 1 ∧ (k + 1) / w = k / w := by
  have hk : k / w * w + k % w = k := Nat.div_add_mod' k w
  have h1 : k + 1 = w * (k / w) + (k % w + 1) := by
    have hm : w * (k / w) = k / w * w := Nat.mul_comm _ _
    omega
  constructor
  · rw [h1, Nat.mul_add_mod, Nat.mod_eq_of_lt h]
  · rw [h1, Nat.mul_add_div hw, Nat.div_eq_of_lt h]
    omega

lemma succ_mod_div_eq (k w : Nat) (hw : 0 < w) (h : k % w + 1 = w) :
    (k + 1) % w = 0 ∧ (k + 1) / w = k / w + 1 := by
  have hk : k / w * w + k % w = k := Nat.div_add_mod' k w
  have h1 : k + 1 = w * (k / w + 1) := by
    have hm : w * (k / w + 1) = k / w * w + w := by ring
    omega
  constructor
  · rw [h1, Nat.mul_mod_right]
  · rw [h1, Nat.mul_div_right _ hw]

lemma set_append_length (l l2 : List Char) (c : Char) :
    (l ++ l2).set l.length c = l ++ l2.set 0 c := by
  rw [List.set_append, if_neg (lt_irrefl _)]
  simp

lemma replicate_set_zero (w : Nat) (hw : 0 < w) (c : Char) :
    (List.replicate w ' ').set 0 c = c :: List.replicate (w - 1) ' ' := by
  conv_lhs => rw [show w = (w - 1) + 1 by omega, List.replicate_succ]
  rfl

/-- Writing one plain character into the canonical filled state advances it to
the filled state of one more character: the core of the plain-text layout
argument. -/
lemma put_char_filled (w : Nat) (hw : 0 < w) (hw2 : w ≤ 0xFFFF)
    (l : List Char) (c : Char) :
    (filledState w l).put_char c = some (filledState w (l ++ [c])) := by
  have hk : l.length / w * w + l.length % w = l.length := Nat.div_add_mod' _ _
  have hr : l.length % w < w := Nat.mod_lt _ hw
  have hceil := ceilDiv_eq l.length w hw
  have hceil1 := ceilDiv_eq (l.length + 1) w hw
  by_cases h0 : l.length % w = 0
  · -- the cursor sits on a row boundary: the growth loop extends once
    have hc : ceilDiv l.length w = l.length / w := by rw [hceil, if_pos h0]
    have hpad : ceilDiv l.length w * w - l.length = 0 := by rw [hc]; omega
    have hfs : filledState w l = ⟨w, l.length / w, l, ⟨0, l.length / w⟩⟩ := by
      unfold filledState
      rw [hpad, hc, h0]
      simp
    rw [hfs]
    have hewcp : TermState.extend_while_cursor_past
          ⟨w, l.length / w, l, ⟨0, l.length / w⟩⟩
        = ⟨w, l.length / w + 1, l ++ List.replicate w ' ', ⟨0, l.length / w⟩⟩ := by
      unfold TermState.extend_while_cursor_past
      show TermState.extendN _ (l.length / w + 1 - (l.length / w)) = _
      have h1 : l.length / w + 1 - (l.length / w) = 1 := by omega
      rw [h1]
      rfl
    unfold TermState.put_char
    rw [hewcp]
    dsimp only
    have hidx : Cursor.index ⟨0, l.length / w⟩ w = l.length := by
      simp [Cursor.index]; omega
    simp only [hidx]
    rw [if_pos (by simp; omega)]
    rw [set_append_length, replicate_set_zero w hw]
    have hx1 : (0 + 1) % 2 ^ 16 = 1 := by norm_num
    simp only [hx1]
    by_cases hw1 : w = 1
    · subst hw1
      rw [if_pos (by omega)]
      simp [filledState, ceilDiv]
      omega
    · have hw1' : ¬ (1 ≥ w) := by omega
      rw [if_neg hw1']
      have hm1 : (l.length + 1) % w = 1 := by
        have := (succ_mod_div_lt l.length w hw (by omega)).1
        omega
      have hd1 : (l.length + 1) / w = l.length / w := by
        exact (succ_mod_div_lt l.length w hw (by omega)).2
      have hc1 : ceilDiv (l.length + 1) w = l.length / w + 1 := by
        rw [hceil1, if_neg (by omega), hd1]
      have hpad1 : ceilDiv (l.length + 1) w * w - (l.length + 1) = w - 1 := by
        rw [hc1]
        have : (l.length / w + 1) * w = l.length / w * w + w := by ring
        rw [this]
        omega
      simp only [filledState, List.length_append, List.length_singleton]
      rw [hpad1, hm1, hd1, hc1]
      simp
  · -- mid-row: no growth is needed
    have hc : ceilDiv l.length w = l.length / w + 1 := by rw [hceil, if_neg h0]
    have hpad : ceilDiv l.length w * w - l.length = w - l.length % w := by
      rw [hc]
      have : (l.length / w + 1) * w = l.length / w * w + w := by ring
      rw [this]
      omega
    have hfs : filledState w l
        = ⟨w, l.length / w + 1, l ++ List.replicate (w - l.length % w) ' ',
            ⟨l.length % w, l.length / w⟩⟩ := by
      unfold filledState
      rw [hpad, hc]
    rw [hfs]
    have hewcp : TermState.extend_while_cursor_past
          ⟨w, l.length / w + 1, l ++ List.replicate (w - l.length % w) ' ',
            ⟨l.length % w, l.length / w⟩⟩
        = ⟨w, l.length / w + 1, l ++ List.replicate (w - l.length % w) ' ',
            ⟨l.length % w, l.length / w⟩⟩ := by
      unfold TermState.extend_while_cursor_past
      show TermState.extendN _ (l.length / w + 1 - (l.length / w + 1)) = _
      have h1 : l.length / w + 1 - (l.length / w + 1) = 0 := by omega
      rw [h1]
      rfl
    unfold TermState.put_char
    rw [hewcp]
    dsimp only
    have hidx : Cursor.index ⟨l.length % w, l.length / w⟩ w = l.length := by
      simp [Cursor.index]; omega
    simp only [hidx]
    rw [if_pos (by simp [List.length_replicate]; omega)]
    rw [set_append_length, replicate_set_zero (w - l.length % w) (by omega)]
    have hx1 : (l.length % w + 1) % 2 ^ 16 = l.length % w + 1 := by
      have : l.length % w + 1 < 2 ^ 16 := by norm_num; omega
      exact Nat.mod_eq_of_lt this
    simp only [hx1]
    by_cases hlast : l.length % w + 1 = w
    · rw [if_pos (by omega)]
      have hm1 : (l.length + 1) % w = 0 := (succ_mod_div_eq l.length w hw hlast).1
      have hd1 : (l.length + 1) / w = l.length / w + 1 :=
        (succ_mod_div_eq l.length w hw hlast).2
      have hc1 : ceilDiv (l.length + 1) w = l.length / w + 1 := by
        rw [hceil1, if_pos hm1, hd1]
      have hpad1 : ceilDiv (l.length + 1) w * w - (l.length + 1)
          = w - l.length % w - 1 := by
        rw [hc1]
        have : (l.length / w + 1) * w = l.length / w * w + w := by ring
        rw [this]
        omega
      simp only [filledState, List.length_append, List.length_singleton]
      rw [hpad1, hm1, hd1, hc1]
      simp
    · rw [if_neg (by omega)]
      have hm1 : (l.length + 1) % w = l.length % w + 1 :=
        (succ_mod_div_lt l.length w hw (by omega)).1
      have hd1 : (l.length + 1) / w = l.length / w :=
        (succ_mod_div_lt l.length w hw (by omega)).2
      have hc1 : ceilDiv (l.length + 1) w = l.length / w + 1 := by
        rw [hceil1, if_neg (by omega), hd1]
      have hpad1 : ceilDiv (l.length + 1) w * w - (l.length + 1)
          = w - l.length % w - 1 := by
        rw [hc1]
        have : (l.length / w + 1) * w = l.length / w * w + w := by ring
        rw [this]
        omega
      simp only [filledState, List.length_append, List.length_singleton]
      rw [hpad1, hm1, hd1, hc1]
      simp

lemma apply_putChars_filled (w : Nat) (hw : 0 < w) (hw2 : w ≤ 0xFFFF)
    (cs l : List Char) :
    applyCmds (filledState w l) (cs.map TermCmd.PutChar)
      = some (filledState w (l ++ cs)) := by
  induction cs generalizing l with
  | nil => simp [applyCmds]
  | cons c cs ih =>
    simp only [List.map_cons, applyCmds, applyCmd]
    rw [put_char_filled w hw hw2 l c]
    simpa [List.append_assoc] using ih (l ++ [c])

lemma advance_plain (cs : List Char)
    (h : ∀ c ∈ cs, ¬(c = ESC ∨ c = '\r' ∨ c = '\n')) :
    advance ⟨.Init, []⟩ cs = (⟨.Init, []⟩, cs.map TermCmd.PutChar) := by
  induction cs with
  | nil => rfl
  | cons c cs ih =>
    have hc := h c (by simp)
    push_neg at hc
    obtain ⟨h1, h2, h3⟩ := hc
    have hpc : processChar ⟨.Init, []⟩ c = (⟨.Init, []⟩, some (.PutChar c)) := by
      simp [processChar, h1, h2, h3]
    simp [advance, hpc, ih (fun c hc => h c (by simp [hc]))]

lemma ceilDiv_zero (w : Nat) (hw : 0 < w) : ceilDiv 0 w = 0 := by
  unfold ceilDiv
  exact Nat.div_eq_of_lt (by omega)

lemma filledState_nil (w : Nat) (hw : 0 < w) :
    (Term.new w).term_state = filledState w [] := by
  simp [Term.new, filledState, ceilDiv_zero w hw]

/-! ## Claim theorems -/

/-- C1: the claim that `feed` never panics for any positive width and any
byte input is FALSE on the code: moving the cursor column at or beyond the
width (here `ESC [ 5 ; 0 H` on a width-2 terminal) and then writing a
character makes `put_char` index `cells[cursor.y * width + cursor.x]` out of
bounds — the growth loop only guarantees `cursor.y < height`, not
`cursor.x < width` — which is a Rust panic (modelled by `none`).  The second
conjunct isolates the panicking `put_char` call at the grid state reached
just before it. -/
theorem feed_panics_on_column_past_width :
    Term.feed (Term.new 2) [0x1b, 0x5B, 0x35, 0x3B, 0x30, 0x48, 0x61] = none ∧
    TermState.put_char ⟨2, 0, [], ⟨5, 0⟩⟩ 'a' = none := by
  constructor <;> decide

/-- C2 counterexample: the parser does NOT emit a put-character of U+FFFD for
an invalid byte sequence.  Feeding the invalid byte `0xFF` followed by `a`
emits only `PutChar 'a'`; no replacement character appears. -/
theorem utf8_invalid_no_replacement :
    (advance ⟨.Init, []⟩ (decodeUtf8 [0xFF, 0x61])).2 = [TermCmd.PutChar 'a'] ∧
    TermCmd.PutChar (Char.ofNat 0xFFFD) ∉
      (advance ⟨.Init, []⟩ (decodeUtf8 [0xFF, 0x61])).2 := by
  constructor <;> decide

/-- C2 (amended): an invalid byte sequence is skipped entirely — no command at
all is emitted for it (in particular no U+FFFD put-character) — and parsing
continues with the remaining bytes.  Stated for a leading byte that can never
occur in valid UTF-8 (`0xC0`, `0xC1`, or `0xF5..`): dropping it changes
neither the decoded characters nor the parser's commands. -/
theorem invalid_byte_skipped (p : AnsiParser) (b : Nat) (bs : List Nat)
    (h : b = 0xC0 ∨ b = 0xC1 ∨ 0xF5 ≤ b) :
    decodeUtf8 (b :: bs) = decodeUtf8 bs ∧
    advance p (decodeUtf8 (b :: bs)) = advance p (decodeUtf8 bs) := by
  have hdec : decodeUtf8 (b :: bs) = decodeUtf8 bs := by
    cases bs with
    | nil => simp [decodeUtf8, decodeGo, startByte_none b h]
    | cons x xs => simp [decodeUtf8, decodeGo, startByte_none b h]
  exact ⟨hdec, by rw [hdec]⟩

/-- Witness for C2 (amended) at the concrete input `[0xFF, 0x61]`. -/
theorem invalid_byte_skipped_witness :
    decodeUtf8 [0xFF, 0x61] = decodeUtf8 [0x61] ∧
    advance ⟨.Init, []⟩ (decodeUtf8 [0xFF, 0x61]) =
      advance ⟨.Init, []⟩ (decodeUtf8 [0x61]) :=
  invalid_byte_skipped ⟨.Init, []⟩ 0xFF [0x61] (by decide)

/-- C7: the clear-screen command, for EVERY mode value, overwrites every
currently allocated cell with a space and keeps the height, so the rendered
contents consist solely of spaces and newlines, with the same number of lines
(one `\n` per row of the unchanged height). -/
theorem clear_screen_any_mode (s : TermState) (mode : Nat) :
    applyCmd s (.Clear mode) = some (s.clear mode) ∧
    (s.clear mode).cells = List.replicate s.cells.length ' ' ∧
    (s.clear mode).height = s.height ∧
    (∀ c ∈ (s.clear mode).contents_to_string, c = ' ' ∨ c = '\n') ∧
    ((s.clear mode).contents_to_string).count '\n' = s.height := by
  refine ⟨rfl, rfl, rfl, ?_, ?_⟩
  · intro c hc
    unfold TermState.contents_to_string at hc
    rw [List.mem_flatten] at hc
    obtain ⟨row, hrow, hcrow⟩ := hc
    rw [List.mem_map] at hrow
    obtain ⟨y, _, rfl⟩ := hrow
    rcases List.mem_append.1 hcrow with hmem | hmem
    · left
      unfold TermState.line_slice at hmem
      have hm := List.mem_of_mem_drop (List.mem_of_mem_take hmem)
      simp only [TermState.clear, List.mem_replicate] at hm
      exact hm.2
    · right
      simpa using hmem
  · have hcells : ∀ c ∈ (s.clear mode).cells, c ≠ '\n' := by
      intro c hc
      simp only [TermState.clear, List.mem_replicate] at hc
      simp [hc.2]
    have h := count_newline_contents (s.clear mode) hcells
    simpa [TermState.clear] using h

/-- C8: with the parser in the `Esc` state, any character other than `=` and
`[` emits no command and leaves the parser state (status AND parameter bytes)
completely unchanged — it stays in `Esc` — so a later `[` still opens a
control sequence and a later `=` still returns to `Init`. -/
theorem escape_seen_state_preserved (p : AnsiParser) (c : Char)
    (hst : p.status = .Esc) (h1 : c ≠ '=') (h2 : c ≠ '[') :
    processChar p c = (p, none) ∧
    processChar p '[' = ({ p with status := .ControlSeqStart }, none) ∧
    processChar p '=' = ({ p with status := .Init }, none) := by
  refine ⟨?_, ?_, ?_⟩ <;> simp [processChar, hst, h1, h2]

/-- Witness for C8 with the parser state `⟨Esc, []⟩` and the character `x`. -/
theorem escape_seen_state_preserved_witness :
    processChar ⟨.Esc, []⟩ 'x' = (⟨.Esc, []⟩, none) ∧
    processChar ⟨.Esc, []⟩ '[' = (⟨.ControlSeqStart, []⟩, none) ∧
    processChar ⟨.Esc, []⟩ '=' = (⟨.Init, []⟩, none) :=
  escape_seen_state_preserved ⟨.Esc, []⟩ 'x' rfl (by decide) (by decide)

/-- C9: clearing the screen (any mode) leaves the cursor column and row
exactly unchanged (and the width and height too), so the cell index targeted
by the next `put_char` — `cursor.index width` after the growth loop — is the
same as it would have been without the clear. -/
theorem clear_preserves_cursor (s : TermState) (mode : Nat) :
    (s.clear mode).cursor = s.cursor ∧
    (s.clear mode).width = s.width ∧
    (s.clear mode).height = s.height ∧
    ((s.clear mode).extend_while_cursor_past).cursor.index
        ((s.clear mode).extend_while_cursor_past).width
      = (s.extend_while_cursor_past).cursor.index
          (s.extend_while_cursor_past).width := by
  refine ⟨rfl, rfl, rfl, ?_⟩
  rw [ewcp_cursor, ewcp_width, ewcp_cursor, ewcp_width]
  rfl

/-- C3 counterexample: splitting the two-byte UTF-8 character `é`
(`0xC3 0xA9`) across two `feed` calls does NOT produce the same state as
feeding it whole — each call sees only an invalid fragment and drops it, so
the split feeds write nothing while the single feed writes `é`. -/
theorem feed_split_multibyte_differs :
    (Term.feed (Term.new 1) [0xC3]).bind (fun t1 => Term.feed t1 [0xA9]) ≠
      Term.feed (Term.new 1) [0xC3, 0xA9] := by decide

/-- C3 (amended): feeding `a` then `b` equals feeding `a ++ b` whenever the
split point does not fall inside a multi-byte UTF-8 character, i.e. whenever
the decoded characters of `a ++ b` are the decoded characters of `a` followed
by those of `b`.  The parser state (status and accumulated parameters)
persists across calls, so this holds in particular for any split inside an
escape sequence: the second conjunct shows the side condition always holds
when `a` is pure ASCII.  (Splitting inside a multi-byte character violates the
side condition and genuinely loses the character, since UTF-8 decoding is
per-call.) -/
theorem feed_split_chunk_boundary (t : Term) (a b : List Nat) :
    (decodeUtf8 (a ++ b) = decodeUtf8 a ++ decodeUtf8 b →
      (Term.feed t a).bind (fun t1 => Term.feed t1 b) = Term.feed t (a ++ b)) ∧
    ((∀ x ∈ a, x ≤ 0x7F) → decodeUtf8 (a ++ b) = decodeUtf8 a ++ decodeUtf8 b) := by
  constructor
  · intro h
    obtain ⟨s, p⟩ := t
    simp only [Term.feed]
    rw [h, advance_append, applyCmds_append]
    cases hc1 : applyCmds s (advance p (decodeUtf8 a)).2 with
    | none => simp
    | some st => simp
  · intro h
    rw [decodeUtf8_ascii_append a b h, decodeUtf8_ascii a h]

/-- Witness for C3 (amended): the escape sequence `ESC [ 3 B` split between
the `ESC [` and the `3 B` gives the same result as feeding it whole. -/
theorem feed_split_chunk_boundary_witness :
    (Term.feed (Term.new 2) [0x1b, 0x5B]).bind
        (fun t1 => Term.feed t1 [0x33, 0x42]) =
      Term.feed (Term.new 2) ([0x1b, 0x5B] ++ [0x33, 0x42]) :=
  (feed_split_chunk_boundary (Term.new 2) [0x1b, 0x5B] [0x33, 0x42]).1 (by decide)

/-- C5: the buffer length equals `width * height` after construction, is
preserved by every `feed` that completes, and holds again after `reset`; and
a freshly allocated row consists entirely of spaces (`extend` appends exactly
`width` space characters). -/
theorem grid_size_invariant :
    (∀ w : Nat, (Term.new w).term_state.cellsInv) ∧
    (∀ (t t' : Term) (bs : List Nat), t.term_state.cellsInv →
        Term.feed t bs = some t' → t'.term_state.cellsInv) ∧
    (∀ t : Term, (Term.reset t).term_state.cellsInv) ∧
    (∀ s : TermState, s.extend.cells = s.cells ++ List.replicate s.width ' ') := by
  refine ⟨?_, ?_, ?_, fun s => rfl⟩
  · intro w
    simp [Term.new, TermState.cellsInv]
  · intro t t' bs h hf
    simp only [Term.feed] at hf
    split at hf
    · cases hf
      exact applyCmds_cellsInv _ _ _ h (by assumption)
    · cases hf
  · intro t
    simp [Term.reset, TermState.cellsInv]

/-- Witness for C5: the invariant after feeding one character into a fresh
width-2 terminal. -/
theorem grid_size_invariant_witness :
    TermState.cellsInv ⟨2, 1, ['a', ' '], ⟨1, 0⟩⟩ :=
  grid_size_invariant.2.1 (Term.new 2) ⟨⟨2, 1, ['a', ' '], ⟨1, 0⟩⟩, ⟨.Init, []⟩⟩
    [0x61] rfl (by decide)

/-- C10: only put-character commands allocate rows.  A feed whose emitted
commands contain no put-character always completes (`some`) and leaves both
the height and the buffer length unchanged — even though the cursor row may
end up far past the height — and on a fresh terminal such a feed leaves
`is_empty` true and the contents empty. -/
theorem only_put_char_allocates :
    (∀ (t : Term) (bs : List Nat),
        (∀ c ∈ (advance t.ansiParser (decodeUtf8 bs)).2, c.isPutChar = false) →
        ∃ t', Term.feed t bs = some t' ∧
          t'.term_state.height = t.term_state.height ∧
          t'.term_state.cells.length = t.term_state.cells.length) ∧
    (∀ (w : Nat) (bs : List Nat),
        (∀ c ∈ (advance ⟨.Init, []⟩ (decodeUtf8 bs)).2, c.isPutChar = false) →
        ∃ t', Term.feed (Term.new w) bs = some t' ∧
          t'.is_empty = true ∧ t'.contents_to_string = []) := by
  have main : ∀ (t : Term) (bs : List Nat),
      (∀ c ∈ (advance t.ansiParser (decodeUtf8 bs)).2, c.isPutChar = false) →
      ∃ t', Term.feed t bs = some t' ∧
        t'.term_state.height = t.term_state.height ∧
        t'.term_state.cells.length = t.term_state.cells.length := by
    intro t bs h
    obtain ⟨s', hs', hh, hl, _⟩ := applyCmds_not_putChar t.term_state _ h
    refine ⟨⟨s', (advance t.ansiParser (decodeUtf8 bs)).1⟩, ?_, hh, hl⟩
    simp [Term.feed, hs']
  refine ⟨main, ?_⟩
  intro w bs h
  obtain ⟨t', hf, hh, hl⟩ := main (Term.new w) bs h
  refine ⟨t', hf, ?_, ?_⟩
  · have hl0 : t'.term_state.cells.length = 0 := by simpa [Term.new] using hl
    simp [Term.is_empty, List.isEmpty_iff, List.length_eq_zero.1 hl0]
  · have hh0 : t'.term_state.height = 0 := by simpa [Term.new] using hh
    simp [Term.contents_to_string, TermState.contents_to_string, hh0]

/-- Witness for C10: CR, LF, clear-screen, cursor-down 5 and erase-to-eol on a
fresh width-3 terminal emit no put-character, leave it empty, and render as
the empty string. -/
theorem only_put_char_allocates_witness :
    ∃ t', Term.feed (Term.new 3)
        [0x0D, 0x0A, 0x1B, 0x5B, 0x32, 0x4A, 0x1B, 0x5B, 0x35, 0x42,
          0x1B, 0x5B, 0x4B] = some t' ∧
      t'.is_empty = true ∧ t'.contents_to_string = [] :=
  only_put_char_allocates.2 3
    [0x0D, 0x0A, 0x1B, 0x5B, 0x32, 0x4A, 0x1B, 0x5B, 0x35, 0x42,
      0x1B, 0x5B, 0x4B] (by decide)

/-- C6: feeding `k` plain printable characters (here: ASCII bytes
`0x20..=0x7E`, which cover exactly the characters the parser treats as plain
put-characters) into a fresh width-`w` terminal (`0 < w`, `w` a `u16` value)
completes and yields the canonical layout: `⌈k / w⌉` rows — exactly `k / w`
when `w` divides `k` — whose cells, read row-major, are the input characters
followed by space padding; rendering one `\n` per row. -/
theorem plain_printable_layout (w : Nat) (hw : 0 < w) (hw2 : w ≤ 0xFFFF)
    (bs : List Nat) (hbs : ∀ x ∈ bs, 0x20 ≤ x ∧ x ≤ 0x7E) :
    Term.feed (Term.new w) bs
        = some ⟨filledState w (bs.map Char.ofNat), ⟨.Init, []⟩⟩ ∧
    (filledState w (bs.map Char.ofNat)).height = ceilDiv bs.length w ∧
    (filledState w (bs.map Char.ofNat)).cells
        = bs.map Char.ofNat
            ++ List.replicate (ceilDiv bs.length w * w - bs.length) ' ' ∧
    ((filledState w (bs.map Char.ofNat)).contents_to_string).count '\n'
        = ceilDiv bs.length w ∧
    (bs.length % w = 0 → ceilDiv bs.length w = bs.length / w) := by
  have hascii : ∀ x ∈ bs, x ≤ 0x7F := fun x hx => by have := hbs x hx; omega
  have hdec : decodeUtf8 bs = bs.map Char.ofNat := decodeUtf8_ascii bs hascii
  have htoNat : ∀ x ∈ bs, (Char.ofNat x).toNat = x := by
    intro x hx
    exact char_toNat_ofNat x (by have := hbs x hx; omega)
  have hplain : ∀ c ∈ bs.map Char.ofNat, ¬(c = ESC ∨ c = '\r' ∨ c = '\n') := by
    intro c hc
    obtain ⟨x, hx, rfl⟩ := List.mem_map.1 hc
    have ht := htoNat x hx
    have hge := (hbs x hx).1
    have e1 : Char.toNat ESC = 27 := rfl
    have e2 : Char.toNat '\r' = 13 := rfl
    have e3 : Char.toNat '\n' = 10 := rfl
    rintro (heq | heq | heq) <;> rw [heq] at ht <;> omega
  have hadv := advance_plain (bs.map Char.ofNat) hplain
  have hfs0 : (⟨w, 0, [], ⟨0, 0⟩⟩ : TermState) = filledState w [] :=
    filledState_nil w hw
  have hfeed : Term.feed (Term.new w) bs
      = some ⟨filledState w (bs.map Char.ofNat), ⟨.Init, []⟩⟩ := by
    unfold Term.feed Term.new
    dsimp only
    rw [hdec, hadv]
    dsimp only
    rw [hfs0, apply_putChars_filled w hw hw2 (bs.map Char.ofNat) []]
    simp
  refine ⟨hfeed, by simp [filledState], by simp [filledState], ?_, ?_⟩
  · have hcells : ∀ c ∈ (filledState w (bs.map Char.ofNat)).cells, c ≠ '\n' := by
      intro c hc
      simp only [filledState, List.mem_append] at hc
      rcases hc with hc | hc
      · obtain ⟨x, hx, rfl⟩ := List.mem_map.1 hc
        have ht := htoNat x hx
        have hge := (hbs x hx).1
        intro heq
        rw [heq] at ht
        have e3 : Char.toNat '\n' = 10 := rfl
        omega
      · rw [List.mem_replicate] at hc
        rw [hc.2]
        decide
    rw [count_newline_contents _ hcells]
    simp [filledState]
  · intro h
    rw [ceilDiv_eq _ _ hw, if_pos h]

/-- Witness for C6: the three characters `abc` on a width-2 terminal give two
rows, `ab` and `c `. -/
theorem plain_printable_layout_witness :
    Term.feed (Term.new 2) [0x61, 0x62, 0x63]
        = some ⟨filledState 2 ([0x61, 0x62, 0x63].map Char.ofNat), ⟨.Init, []⟩⟩ ∧
    (filledState 2 ([0x61, 0x62, 0x63].map Char.ofNat)).height
        = ceilDiv ([0x61, 0x62, 0x63] : List Nat).length 2 ∧
    (filledState 2 ([0x61, 0x62, 0x63].map Char.ofNat)).cells
        = [0x61, 0x62, 0x63].map Char.ofNat
            ++ List.replicate
                (ceilDiv ([0x61, 0x62, 0x63] : List Nat).length 2 * 2
                  - ([0x61, 0x62, 0x63] : List Nat).length) ' ' ∧
    ((filledState 2 ([0x61, 0x62, 0x63].map Char.ofNat)).contents_to_string).count
        '\n' = ceilDiv ([0x61, 0x62, 0x63] : List Nat).length 2 ∧
    (([0x61, 0x62, 0x63] : List Nat).length % 2 = 0 →
      ceilDiv ([0x61, 0x62, 0x63] : List Nat).length 2
        = ([0x61, 0x62, 0x63] : List Nat).length / 2) :=
  plain_printable_layout 2 (by decide) (by decide) [0x61, 0x62, 0x63] (by decide)

/-- C4 counterexample: the fields of `H` are NOT defaulted independently.
`ESC [ 5 H` (a lone first parameter) emits `CursorSet 5 0` — the missing
second field is left at the array initializer `0`, not the claimed default
`1` — and `ESC [ ; 7 H` (empty first field, valid second field) emits
`CursorSet 1 1` — the failing first field aborts the whole parse, so the
valid `7` is discarded rather than used. -/
theorem cursor_set_defaults_refuted :
    (advance ⟨.Init, []⟩ (decodeUtf8 [0x1b, 0x5B, 0x35, 0x48])).2
        = [TermCmd.CursorSet 5 0] ∧
    (advance ⟨.Init, []⟩ (decodeUtf8 [0x1b, 0x5B, 0x35, 0x48])).2
        ≠ [TermCmd.CursorSet 5 1] ∧
    (advance ⟨.Init, []⟩ (decodeUtf8 [0x1b, 0x5B, 0x3B, 0x37, 0x48])).2
        = [TermCmd.CursorSet 1 1] ∧
    (advance ⟨.Init, []⟩ (decodeUtf8 [0x1b, 0x5B, 0x3B, 0x37, 0x48])).2
        ≠ [TermCmd.CursorSet 1 7] := by
  refine ⟨?_, ?_, ?_, ?_⟩ <;> decide

/-- C4 (amended): for parameter text terminated by `H`, when every present
field (among the first two) parses as a `u8` the command takes the parsed
values, with a missing second field becoming `0` (the output-array
initializer); when any visited field fails to parse — e.g. an empty first
field — the whole parse fails and BOTH coordinates fall back to `(1, 1)`.
The fields are not handled independently.  (`f1`, `f2` are digit-byte
fields; `0x3B` is `;`.) -/
theorem cursor_set_param_parsing (f1 f2 : List Nat) (v1 v2 : Nat)
    (hd1 : ∀ x ∈ f1, 0x30 ≤ x ∧ x ≤ 0x39) (hd2 : ∀ x ∈ f2, 0x30 ≤ x ∧ x ≤ 0x39)
    (hp1 : parseU8 (f1.map Char.ofNat) = some v1)
    (hp2 : parseU8 (f2.map Char.ofNat) = some v2) :
    (∀ ps : List Nat, processChar ⟨.ControlSeqStart, ps⟩ 'H'
        = (⟨.Init, []⟩, terminatorCmd 'H' ps)) ∧
    terminatorCmd 'H' (f1 ++ 0x3B :: f2) = some (.CursorSet v1 v2) ∧
    terminatorCmd 'H' f1 = some (.CursorSet v1 0) ∧
    terminatorCmd 'H' (0x3B :: f2) = some (.CursorSet 1 1) ∧
    terminatorCmd 'H' [] = some (.CursorSet 1 1) := by
  have ha1 : ∀ x ∈ f1, x ≤ 0x7F := fun x hx => by have := hd1 x hx; omega
  have ha2 : ∀ x ∈ f2, x ≤ 0x7F := fun x hx => by have := hd2 x hx; omega
  have hsemi : Char.ofNat 0x3B = ';' := by decide
  have hne1 : ∀ c ∈ f1.map Char.ofNat, c ≠ ';' := by
    intro c hc
    obtain ⟨x, hx, rfl⟩ := List.mem_map.1 hc
    exact char_ofNat_ne_semi x (hd1 x hx).2
  have hne2 : ∀ c ∈ f2.map Char.ofNat, c ≠ ';' := by
    intro c hc
    obtain ⟨x, hx, rfl⟩ := List.mem_map.1 hc
    exact char_ofNat_ne_semi x (hd2 x hx).2
  refine ⟨fun ps => rfl, ?_, ?_, ?_, ?_⟩
  · have hall : ∀ x ∈ f1 ++ 0x3B :: f2, x ≤ 0x7F := by
      intro x hx
      rcases List.mem_append.1 hx with h | h
      · exact ha1 x h
      · rcases List.mem_cons.1 h with h | h
        · omega
        · exact ha2 x h
    have hmap : (f1 ++ 0x3B :: f2).map Char.ofNat
        = f1.map Char.ofNat ++ ';' :: f2.map Char.ofNat := by
      simp [hsemi]
    simp only [terminatorCmd, parseArr2, decodeStrict_ascii _ hall, hmap,
      Option.some_bind, splitOnSep_append ';' _ _ hne1, splitOnSep_no_sep ';' _ hne2]
    simp [hp1, hp2]
  · simp only [terminatorCmd, parseArr2, decodeStrict_ascii _ ha1,
      Option.some_bind, splitOnSep_no_sep ';' _ hne1]
    simp [hp1]
  · have hall : ∀ x ∈ 0x3B :: f2, x ≤ 0x7F := by
      intro x hx
      rcases List.mem_cons.1 hx with h | h
      · omega
      · exact ha2 x h
    have hmap : (0x3B :: f2).map Char.ofNat = ';' :: f2.map Char.ofNat := by
      simp [hsemi]
    simp only [terminatorCmd, parseArr2, decodeStrict_ascii _ hall, hmap,
      Option.some_bind, splitOnSep_sep_cons, splitOnSep_no_sep ';' _ hne2]
    simp [parseU8]
  · decide

/-- Witness for C4 (amended) with the concrete fields `5` and `7`. -/
theorem cursor_set_param_parsing_witness :
    (∀ ps : List Nat, processChar ⟨.ControlSeqStart, ps⟩ 'H'
        = (⟨.Init, []⟩, terminatorCmd 'H' ps)) ∧
    terminatorCmd 'H' ([0x35] ++ 0x3B :: [0x37]) = some (.CursorSet 5 7) ∧
    terminatorCmd 'H' [0x35] = some (.CursorSet 5 0) ∧
    terminatorCmd 'H' (0x3B :: [0x37]) = some (.CursorSet 1 1) ∧
    terminatorCmd 'H' [] = some (.CursorSet 1 1) :=
  cursor_set_param_parsing [0x35] [0x37] 5 7 (by decide) (by decide)
    (by decide) (by decide)

end AnsiTermBuf
